import Mathlib

/-!
Shallow embedding of the NMT (native memory tracking) core drafts:
the treap (TreapNode / TreapCHeap, src/src/hotspot/share/nmt/treap.hpp),
the VMATree draft embedded in the same header (register_mapping with
summary accounting), the call-stack storage (NativeCallStackStorage),
and the tag-name table (MemTagNameTable).  All loops that are not
structurally recursive are given explicit fuel and return Option: a
some-result witnesses that the corresponding C++ loop terminates within
that many iterations and produces exactly that value.
-/

namespace NMT

/-! Treap embedding: TreapNode of treap.hpp.  Keys are machine words
(sizes fit, no arithmetic overflows occur on keys), priorities are the
uint64 values produced by the PRNG below. -/

/-- addr_cmp, the three-way comparison on positions (PositionComparator::cmp). -/
def addr_cmp (a b : Nat) : Int :=
  if a < b then -1 else if a = b then 0 else 1

inductive Treap (V : Type) where
  | leaf
  | node (left : Treap V) (key : Nat) (value : V) (prio : Nat) (right : Treap V)
deriving DecidableEq, Repr

namespace Treap

variable {V : Type}

def size : Treap V → Nat
  | .leaf => 0
  | .node l _ _ _ r => size l + size r + 1

inductive SplitMode where
  | LT
  | LEQ
deriving DecidableEq, Repr

/-- TreapNode::split.  Partitions at a key; SplitMode decides where equal keys go. -/
def split : Treap V → Nat → SplitMode → Treap V × Treap V
  | .leaf, _, _ => (.leaf, .leaf)
  | .node l k v p r, key, mode =>
    if (addr_cmp k key ≤ 0 ∧ mode = .LEQ) ∨ (addr_cmp k key < 0 ∧ mode = .LT) then
      let q := split r key mode
      (.node l k v p q.1, q.2)
    else
      let q := split l key mode
      (q.1, .node q.2 k v p r)

/-- TreapNode::merge with explicit fuel; the C++ recursion terminates because
trees are finite, a none result means the fuel ran out before that point. -/
def mergeF : Nat → Treap V → Treap V → Option (Treap V)
  | _, .leaf, r => some r
  | _, l, .leaf => some l
  | 0, _, _ => none
  | fuel + 1, .node ll lk lv lp lr, .node rl rk rv rp rr =>
    if lp > rp then
      (mergeF fuel lr (.node rl rk rv rp rr)).map (fun t => .node ll lk lv lp t)
    else
      (mergeF fuel (.node ll lk lv lp lr) rl).map (fun t => .node t rk rv rp rr)

/-- TreapNode::find, with the comparison directions exactly as in the source:
on a strictly smaller key it recurses into the left child and on a strictly
larger key into the right child. -/
def find : Treap V → Nat → Option V
  | .leaf, _ => none
  | .node l k v _ r, key =>
    if addr_cmp k key = 0 then some v
    else if addr_cmp k key ≤ 0 then find l key
    else find r key

/-- The found-node value overwrite of TreapNode::upsert: walks exactly the
path find walks and replaces the value in place; none when find fails. -/
def findRepl : Treap V → Nat → V → Option (Treap V)
  | .leaf, _, _ => none
  | .node l k v p r, key, nv =>
    if addr_cmp k key = 0 then some (.node l key nv p r)
    else if addr_cmp k key ≤ 0 then (findRepl l key nv).map (fun l2 => .node l2 k v p r)
    else (findRepl r key nv).map (fun r2 => .node l k v p r2)

/-- TreapNode::upsert.  Splits LEQ at the key, tries to overwrite the value of
an equal key found in the left part, else creates the node (with the supplied
priority) and merges it in.  The returned Bool says whether make_node ran. -/
def upsertF (fuel : Nat) (t : Treap V) (k : Nat) (v : V) (newPrio : Nat) :
    Option (Treap V × Bool) :=
  let s := split t k .LEQ
  match findRepl s.1 k v with
  | some l2 => (mergeF fuel l2 s.2).map (fun u => (u, false))
  | none =>
    match mergeF fuel s.1 (.node .leaf k v newPrio .leaf) with
    | some m => (mergeF fuel m s.2).map (fun u => (u, true))
    | none => none

/-- TreapNode::remove.  Splits LEQ then LT; the middle part (the equal keys)
is dropped and the outer parts merged. -/
def removeF (fuel : Nat) (t : Treap V) (k : Nat) : Option (Treap V) :=
  let fst := split t k .LEQ
  let snd := split fst.1 k .LT
  mergeF fuel snd.1 fst.2

/-- In-order key/value listing, used to state properties of resulting trees. -/
def inorder : Treap V → List (Nat × V)
  | .leaf => []
  | .node l k v _ r => inorder l ++ (k, v) :: inorder r

/-- Number of nodes holding a given key. -/
def countKey (t : Treap V) (k : Nat) : Nat :=
  (inorder t).countP (fun kv => kv.1 = k)

/-- Strict increase along a list of keys. -/
def strictlyIncreasing : List Nat → Bool
  | [] => true
  | [_] => true
  | a :: b :: rest => Nat.blt a b && strictlyIncreasing (b :: rest)

/-- Strict sortedness of the key sequence (pairwise-distinct, ordered keys). -/
def keysSorted (t : Treap V) : Bool :=
  strictlyIncreasing ((inorder t).map Prod.fst)

/-- Max-heap property on priorities, the treap invariant. -/
def heapOrdered : Treap V → Bool
  | .leaf => true
  | .node l _ _ p r =>
    heapOrdered l && heapOrdered r &&
      (match l with | .leaf => true | .node _ _ _ lp _ => p > lp) &&
      (match r with | .leaf => true | .node _ _ _ rp _ => p > rp)

end Treap

/-- The JFRPrng-derived linear congruential step of TreapCHeap::prng_next. -/
def prngNext (seed : Nat) : Nat :=
  (0x5DEECE66D * seed + 0xB) % (2 ^ 48)

/-- TreapCHeap: the owning treap handle, tree root plus PRNG seed (default 1234). -/
structure TreapCHeap (V : Type) where
  tree : Treap V
  seed : Nat
deriving DecidableEq, Repr

namespace TreapCHeap

variable {V : Type}

def mkEmpty : TreapCHeap V := ⟨.leaf, 1234⟩

/-- TreapCHeap::upsert.  The make_node callback draws from the PRNG, so the
seed advances exactly when a new node is created. -/
def upsert (st : TreapCHeap V) (k : Nat) (v : V) : Option (TreapCHeap V) :=
  let pr := prngNext st.seed
  match Treap.upsertF (st.tree.size + 2) st.tree k v pr with
  | some (t, made) => some ⟨t, if made then pr else st.seed⟩
  | none => none

/-- TreapCHeap::remove. -/
def remove (st : TreapCHeap V) (k : Nat) : Option (TreapCHeap V) :=
  (Treap.removeF (st.tree.size + 2) st.tree k).map (fun t => ⟨t, st.seed⟩)

end TreapCHeap

/-- Direction of descent into a treap node, used to address a node of the
tree the way the C++ code addresses it by pointer during its traversals. -/
inductive Dir where
  | L
  | R
deriving DecidableEq, Repr

namespace Treap

variable {V : Type}

/-- Subtree reached by following a path of child pointers (leaf for null). -/
def subtreeAt : Treap V → List Dir → Treap V
  | t, [] => t
  | .leaf, _ => .leaf
  | .node l _ _ _ _, .L :: p => subtreeAt l p
  | .node _ _ _ _ r, .R :: p => subtreeAt r p

/-- In-place overwrite of the value stored at the node addressed by a path,
the embedding of a pointer write head->value = v.  Structure, keys and
priorities are untouched; an invalid path leaves the tree unchanged. -/
def setValueAt : Treap V → List Dir → V → Treap V
  | .leaf, _, _ => .leaf
  | .node l k _ p r, [], nv => .node l k nv p r
  | .node l k v p r, .L :: pa, nv => .node (setValueAt l pa nv) k v p r
  | .node l k v p r, .R :: pa, nv => .node l k v p (setValueAt r pa nv)

end Treap

/-! VMATree embedding: the register_mapping draft of treap.hpp
(VMATree over METADATA with an EquivalentMetadata predicate and a Merge
strategy).  The template is instantiated at the RegionData metadata of the
later vmatree draft: a call-stack index and a memory tag, compared by
pairwise equality, with the all-zero value as the default-constructed
METADATA(). -/

namespace VMATree

/-- InOut, the three interval states of the draft. -/
inductive InOut where
  | Reserved
  | Committed
  | Released
deriving DecidableEq, Repr

/-- RegionData, the metadata carried per interval: a call-stack storage
index and a memory tag (vmatree draft), compared componentwise. -/
structure RegionData where
  stack_idx : Nat
  mem_tag : Nat
deriving DecidableEq, Repr

/-- RegionData::equals, the EquivalentMetadata instance used here. -/
def RegionData.equals (a b : RegionData) : Bool :=
  a.mem_tag == b.mem_tag && a.stack_idx == b.stack_idx

/-- METADATA(): the default-constructed metadata (empty stack, mtNone tag). -/
def emptyRegionData : RegionData := ⟨0, 0⟩

/-- State, the per-node interval change {in, out, metadata} of the draft. -/
structure State where
  in' : InOut
  out : InOut
  metadata : RegionData
deriving DecidableEq, Repr

/-- is_noop of the draft: only the in/out state types are compared. -/
def State.is_noop (st : State) : Bool :=
  st.in' == st.out

/-- SummaryDiff of the draft: signed totals of reserved and committed bytes. -/
structure SummaryDiff where
  reserve : Int
  commit : Int
deriving DecidableEq, Repr

/-- no_merge, the draft merge strategy keeping the new metadata. -/
def no_merge (a _b : RegionData) : RegionData := a

/-- Merge strategy of the commit discipline (spec 4.4.2): adopt the new
stack, preserve the enclosing tag. -/
def inherit_tag_merge (a b : RegionData) : RegionData := ⟨a.stack_idx, b.mem_tag⟩

/-- size_t subtraction: two's complement difference of machine words. -/
def sub64 (a b : Nat) : Int :=
  ((a + 2 ^ 64 - b) % 2 ^ 64 : Nat)

abbrev VTreap := Treap State

/-- The LE search loop opening register_mapping: descends from the root,
recording the latest node seen at or below A as candidate.  On an exact
match the code does not break but keeps descending left, so a predecessor
found there overwrites the exact match, exactly as in the source. -/
def leqSearch : VTreap → Nat → List Dir → Option (List Dir × Nat × State) →
    Option (List Dir × Nat × State)
  | .leaf, _, _, cand => cand
  | .node l k v _ r, a, path, cand =>
    let cand1 := if addr_cmp k a = 0 then some (path, k, v) else cand
    if addr_cmp k a < 0 then leqSearch r a (path ++ [Dir.R]) (some (path, k, v))
    else leqSearch l a (path ++ [Dir.L]) cand1

/-- The A-side of register_mapping: places or merges the node at A and
initializes stB's outgoing state and metadata from the node at or
preceding A. -/
def handleA (st : TreapCHeap State) (a : Nat) (stA0 stB0 : State)
    (mrg : RegionData → RegionData → RegionData) :
    Option (TreapCHeap State × State) :=
  match leqSearch st.tree a [] none with
  | none =>
    if stA0.is_noop then some (st, stB0)
    else (st.upsert a stA0).map (fun st2 => (st2, stB0))
  | some (path, k, v) =>
    let stB1 : State := { stB0 with out := v.out, metadata := v.metadata }
    if k = a then
      let stA1 : State := { stA0 with in' := v.in' }
      if stA1.is_noop ∧ RegionData.equals stA1.metadata v.metadata then
        (st.remove k).map (fun st2 => (st2, stB1))
      else
        let stA2 : State := { stA1 with metadata := mrg stA1.metadata v.metadata }
        some (⟨st.tree.setValueAt path stA2, st.seed⟩, stB1)
    else
      let stA1 : State := { stA0 with in' := v.out }
      if stA1.is_noop ∧ RegionData.equals stA1.metadata v.metadata then some (st, stB1)
      else (st.upsert a stA1).map (fun st2 => (st2, stB1))

/-- Result of the B-side sweep loop. -/
structure SweepResult where
  tree : VTreap
  stB : State
  bNeedsInsert : Bool
  dl : List (Nat × InOut × InOut)
deriving DecidableEq, Repr

/-- The B-side sweep of register_mapping: an explicit-stack traversal over
nodes above A, updating stB's outgoing state, scheduling deletions of the
nodes in (A, B), repurposing or scheduling the node at B, and stopping at
the first node above B that is popped.  The to_visit stack holds paths to
subtrees; pushes and pops mirror the GrowableArray stack (top is the list
head).  A node whose key equals A pushes no children, exactly as in the
source where no branch of the comparison chain applies to it. -/
def sweepF (a b : Nat) (mrg : RegionData → RegionData → RegionData) :
    Nat → VTreap → List (List Dir) → State → Bool → List (Nat × InOut × InOut) →
    Option SweepResult
  | 0, _, _, _, _, _ => none
  | _ + 1, tree, [], stB, bni, dl => some ⟨tree, stB, bni, dl⟩
  | fuel + 1, tree, path :: rest, stB, bni, dl =>
    match tree.subtreeAt path with
    | .leaf => sweepF a b mrg fuel tree rest stB bni dl
    | .node _ k v _ _ =>
      if addr_cmp k b > 0 then
        some ⟨tree, if bni then { stB with out := v.in' } else stB, bni, dl⟩
      else if addr_cmp k a > 0 ∧ addr_cmp k b ≤ 0 then
        let stB1 : State := { stB with out := v.out }
        let stack1 := (path ++ [Dir.R]) :: (path ++ [Dir.L]) :: rest
        if addr_cmp k b < 0 then
          sweepF a b mrg fuel tree stack1 stB1 bni ((k, v.out, v.out) :: dl)
        else
          if stB1.is_noop ∧ RegionData.equals stB1.metadata v.metadata then
            sweepF a b mrg fuel tree stack1 stB1 false ((b, stB1.in', stB1.out) :: dl)
          else
            let stB2 : State := { stB1 with metadata := mrg stB1.metadata v.metadata }
            sweepF a b mrg fuel (tree.setValueAt path stB2) stack1 stB2 false dl
      else if addr_cmp k a < 0 then
        sweepF a b mrg fuel tree ((path ++ [Dir.R]) :: rest) stB bni dl
      else
        sweepF a b mrg fuel tree rest stB bni dl

/-- The deletion-and-accounting loop closing register_mapping: pops the
scheduled nodes LIFO, removes each from the tree and subtracts the reserved
and committed contribution of the interval from the previous popped address
(starting at A) according to the recorded incoming state. -/
def accountF : TreapCHeap State → List (Nat × InOut × InOut) → Nat → SummaryDiff →
    Option (TreapCHeap State × SummaryDiff)
  | st, [], _, diff => some (st, diff)
  | st, (addr, din, _) :: rest, prev, diff =>
    match st.remove addr with
    | none => none
    | some st2 =>
      let d := sub64 addr prev
      let diff2 :=
        if din = InOut.Reserved then { diff with reserve := diff.reserve - d }
        else if din = InOut.Committed then ⟨diff.reserve - d, diff.commit - d⟩
        else diff
      accountF st2 rest addr diff2

/-- The B-node insertion closing the sweep: inserted when not already
placed and either the operation differs or the metadata was changed from
the default-constructed value. -/
def insertB (st2 : TreapCHeap State) (b : Nat) (sres : SweepResult) :
    Option (TreapCHeap State) :=
  if sres.bNeedsInsert ∧
      (¬ sres.stB.is_noop ∨ ¬ RegionData.equals sres.stB.metadata emptyRegionData) then
    st2.upsert b sres.stB
  else
    some st2

/-- register_mapping of the treap.hpp draft: sets [A, B) to the given state
with the given metadata under a metadata merge strategy, and returns the
summary accounting of the change. -/
def register_mapping (st : TreapCHeap State) (a b : Nat) (state : InOut)
    (metadata : RegionData) (mrg : RegionData → RegionData → RegionData) :
    Option (TreapCHeap State × SummaryDiff) :=
  match handleA st a ⟨InOut.Released, state, metadata⟩ ⟨state, InOut.Released, emptyRegionData⟩ mrg with
  | none => none
  | some (st1, stB1) =>
    match sweepF a b mrg (2 * st1.tree.size + 2) st1.tree [[]] stB1 true [] with
    | none => none
    | some sres =>
      match insertB ⟨sres.tree, st1.seed⟩ b sres with
      | none => none
      | some st3 =>
        match accountF st3 sres.dl a ⟨0, 0⟩ with
        | none => none
        | some (st4, diff) =>
          some (st4,
            if state = InOut.Reserved then { diff with reserve := diff.reserve + sub64 b a }
            else if state = InOut.Committed then
              ⟨diff.reserve + sub64 b a, diff.commit + sub64 b a⟩
            else diff)

/-- reserve_mapping of the draft. -/
def reserve_mapping (st : TreapCHeap State) (from' sz : Nat) (metadata : RegionData)
    (mrg : RegionData → RegionData → RegionData) :
    Option (TreapCHeap State × SummaryDiff) :=
  register_mapping st from' (from' + sz) InOut.Reserved metadata mrg

/-- commit_mapping of the draft. -/
def commit_mapping (st : TreapCHeap State) (from' sz : Nat) (metadata : RegionData)
    (mrg : RegionData → RegionData → RegionData) :
    Option (TreapCHeap State × SummaryDiff) :=
  register_mapping st from' (from' + sz) InOut.Committed metadata mrg

/-- release_mapping of the draft (empty metadata). -/
def release_mapping (st : TreapCHeap State) (from' sz : Nat)
    (mrg : RegionData → RegionData → RegionData) :
    Option (TreapCHeap State × SummaryDiff) :=
  register_mapping st from' (from' + sz) InOut.Released emptyRegionData mrg

/-- The empty VMATree: null root, PRNG seeded with the constructor default. -/
def emptyVMA : TreapCHeap State := TreapCHeap.mkEmpty

/-- Invariant I2 on a key-ordered node listing: every consecutive node
pair agrees, the out state of one node being the in state of the next. -/
def adjacentMatched : List (Nat × State) → Bool
  | [] => true
  | [_] => true
  | (_, s1) :: (k2, s2) :: rest =>
    (s1.out == s2.in') && adjacentMatched ((k2, s2) :: rest)

/-- Invariant I4 on a key-ordered node listing: no stored node is a no-op,
where a node is a no-op when its in and out state types agree and its
metadata is equivalent to the metadata of the interval ending at it (the
preceding node's metadata, the empty metadata before the first node). -/
def noNoopNodes : RegionData → List (Nat × State) → Bool
  | _, [] => true
  | prevMd, (_, st) :: rest =>
    (!(st.in' == st.out) || !(RegionData.equals st.metadata prevMd)) &&
      noNoopNodes st.metadata rest

/-- Scenario of the partial-commit test: reserve [0, 100) with stack 5 and
tag 7, then commit [0, 50) with stack 9 under the tag-inheriting commit
merge discipline; the final node listing and both summary diffs. -/
def partialCommitTrace : Option (List (Nat × State) × SummaryDiff × SummaryDiff) := do
  let (st1, d1) ← register_mapping emptyVMA 0 100 InOut.Reserved ⟨5, 7⟩ no_merge
  let (st2, d2) ← register_mapping st1 0 50 InOut.Committed ⟨9, 0⟩ inherit_tag_merge
  return (st2.tree.inorder, d1, d2)

/-- Scenario refuting I2: reserve [0, 100) with tagged metadata, then
release the wider range [0, 200); the final node listing. -/
def releaseWiderTrace : Option (List (Nat × State)) := do
  let (st1, _) ← register_mapping emptyVMA 0 100 InOut.Reserved ⟨5, 7⟩ no_merge
  let (st2, _) ← register_mapping st1 0 200 InOut.Released emptyRegionData no_merge
  return st2.tree.inorder

/-- Scenario of registering strictly inside an existing interval with the
identical state and metadata: reserve [0, 100) then reserve [10, 50), both
with stack 5 and tag 7; the final node listing. -/
def reserveInsideTrace : Option (List (Nat × State)) := do
  let (st1, _) ← register_mapping emptyVMA 0 100 InOut.Reserved ⟨5, 7⟩ no_merge
  let (st2, _) ← register_mapping st1 10 50 InOut.Reserved ⟨5, 7⟩ no_merge
  return st2.tree.inorder

/-- Scenario of property P5: reserve [0, 100) with tagged metadata, then
release exactly [0, 100); the final node listing and both summary diffs. -/
def reserveReleaseTrace : Option (List (Nat × State) × SummaryDiff × SummaryDiff) := do
  let (st1, d1) ← register_mapping emptyVMA 0 100 InOut.Reserved ⟨5, 7⟩ no_merge
  let (st2, d2) ← register_mapping st1 0 100 InOut.Released emptyRegionData no_merge
  return (st2.tree.inorder, d1, d2)

/-- Scenario of property P7, split form: reserve [0, 100) then reserve
[100, 200), identical metadata (stack 5, tag 7); the final node listing. -/
def adjacentReserveTrace : Option (List (Nat × State)) := do
  let (st1, _) ← register_mapping emptyVMA 0 100 InOut.Reserved ⟨5, 7⟩ no_merge
  let (st2, _) ← register_mapping st1 100 200 InOut.Reserved ⟨5, 7⟩ no_merge
  return st2.tree.inorder

/-- Scenario of property P7, one-shot form: a single reserve of [0, 200)
with the same metadata; the final node listing. -/
def singleReserveTrace : Option (List (Nat × State)) := do
  let (st1, _) ← register_mapping emptyVMA 0 200 InOut.Reserved ⟨5, 7⟩ no_merge
  return st1.tree.inorder

/-- An empty-range call on the empty tree: register_mapping(10, 10,
Reserved, default metadata). -/
def emptyRangeTrace : Option (TreapCHeap State × SummaryDiff) :=
  register_mapping emptyVMA 10 10 InOut.Reserved emptyRegionData no_merge

end VMATree

/-! NativeCallStackStorage embedding (nmtNativeCallStackStorage.hpp).
The storage logic (push, get, chunk growth) is in the sources; the
NativeCallStack type itself is not, so it is modelled from the spec. -/

namespace NativeCallStackStorage

/-- Modelled from the spec: a native call stack is its list of frames;
two stacks are equal when their frames agree (structural equality). -/
abbrev NCStack := List Nat

/-- Modelled from the spec: a content hash of the stack
(calculate_hash); only the fact that it is a function of the frames is
relied upon. -/
def calculate_hash (s : NCStack) : Nat :=
  s.foldl (fun h f => h * 31 + f + 1) 0

def static_chunk_size : Nat := 256

/-- Modelled from the spec: a chunk of static_chunk_size pre-allocated
slots; a slot that was never written is empty (none). -/
abbrev NCSChunk := Nat → Option NCStack

def emptyChunk : NCSChunk := fun _ => none

def writeSlot (ch : NCSChunk) (i : Nat) (s : NCStack) : NCSChunk :=
  fun j => if j = i then some s else ch j

/-- The storage: the growable array of chunk pointers plus the mode flag. -/
structure Storage where
  stack_chunks : List NCSChunk
  is_detailed_mode : Bool

/-- The constructor: one chunk is pushed up front. -/
def mkStorage (detailed : Bool) : Storage := ⟨[emptyChunk], detailed⟩

/-- StackIndex: the (chunk, index) pair; StackIndex::equals is pair equality. -/
abbrev StackIndex := Nat × Nat

/-- The StackIndex constructor: both fields are uint16_t, so the chunk
ordinal and the slot index are narrowed modulo 2^16 on construction. -/
def mkStackIndex (chunk index : Nat) : StackIndex :=
  (chunk % 2 ^ 16, index % 2 ^ 16)

/-- The chunk scan inside push: first chunk whose slot at idx is empty
(write there) or holds an equal stack; returns the updated chunk list and
the chunk number, or none when every chunk rejects the stack. -/
def pushScan (idx : Nat) (s : NCStack) : List NCSChunk → Option (List NCSChunk × Nat)
  | [] => none
  | ch :: rest =>
    match ch idx with
    | none => some (writeSlot ch idx s :: rest, 0)
    | some t =>
      if t = s then some (ch :: rest, 0)
      else (pushScan idx s rest).map (fun p => (ch :: p.1, p.2 + 1))

/-- NativeCallStackStorage::push.  The returned indices pass through the
StackIndex constructor and are narrowed to its uint16_t fields. -/
def push (st : Storage) (s : NCStack) : Storage × StackIndex :=
  if st.is_detailed_mode = false then (st, (0, 0))
  else
    match pushScan (calculate_hash s % static_chunk_size) s st.stack_chunks with
    | some (cs, i) =>
      (⟨cs, st.is_detailed_mode⟩, mkStackIndex i (calculate_hash s % static_chunk_size))
    | none =>
      (⟨st.stack_chunks ++ [writeSlot emptyChunk (calculate_hash s % static_chunk_size) s],
        st.is_detailed_mode⟩,
       mkStackIndex st.stack_chunks.length (calculate_hash s % static_chunk_size))

/-- NativeCallStackStorage::get. -/
def get (st : Storage) (si : StackIndex) : Option NCStack :=
  match st.stack_chunks.get? si.1 with
  | some ch => ch si.2
  | none => none

/-- Sequential pushes, collecting the returned indices in order. -/
def pushAll (st : Storage) : List NCStack → Storage × List StackIndex
  | [] => (st, [])
  | s :: rest =>
    let p := push st s
    let q := pushAll p.1 rest
    (q.1, p.2 :: q.2)

/-- Slot content of the chunk list at (chunk, slot). -/
def chunkSlot (l : List NCSChunk) (j sl : Nat) : Option NCStack :=
  match l.get? j with
  | some ch => ch sl
  | none => none

/-- Occupied slots survive with their contents from one storage state to
another (the monotonicity the append-only storage maintains). -/
def Preserves (st st2 : Storage) : Prop :=
  ∀ c sl v, get st (c, sl) = some v → get st2 (c, sl) = some v

/-- A stack is placed at (chunk, slot): the slot is the stack's hash slot,
holds the stack, and every earlier chunk's same slot is occupied by a
different stack. -/
def Placed (st : Storage) (s : NCStack) (c sl : Nat) : Prop :=
  sl = calculate_hash s % static_chunk_size ∧
  get st (c, sl) = some s ∧
  ∀ j, j < c → ∃ v, get st (j, sl) = some v ∧ v ≠ s

/-- The i-th member of a family of pairwise-distinct stacks that all hash
to slot 1 (content hash 256 i + 1). -/
def wrapStack (i : Nat) : NCStack := [256 * i]

/-- The first n stacks of that family, pushed in order: each lands in its
own chunk, so n pushes fill n chunks. -/
def wrapRange (n : Nat) : List NCStack :=
  (List.range n).map wrapStack

/-- A push sequence driving the storage one chunk past the uint16_t chunk
range and then repeating the stack stored in chunk 65536. -/
def wrapSeq : List NCStack :=
  wrapRange 65537 ++ [wrapStack 65536]

end NativeCallStackStorage

/-! MemTagNameTable embedding (memTagNameTable.hpp).  Names are byte
lists (the NUL-free bytes of a C string); the tag type MemTag is stored
in a byte (as the vmatree draft does), so the MemTag casts truncate
modulo 256; mtNone is 0.  The number of predefined tags pushed by the
constructor is a parameter, since memTag.hpp is not among the sources. -/

namespace MemTagNameTable

def nr_of_buckets : Nat := 4096

/-- Nil, the end-of-chain entry reference. -/
def Nil : Int := -1

/-- NameToTagTable::Entry: name offset, tag, next entry reference. -/
structure Entry where
  name : Nat
  tag : Nat
  next : Int
deriving DecidableEq, Repr

/-- The combined MemTagNameTable state: the shared flat name buffer, the
tag-to-name offsets, and the NameToTagTable entry pool and bucket array. -/
structure Table where
  names : List Nat
  tag_to_name : List Nat
  entries : List Entry
  table : Nat → Int

/-- The constructor with the number of predefined tags made explicit:
pushes that many placeholder offsets, leaves every bucket Nil. -/
def mkTable (numTags : Nat) : Table :=
  ⟨[], List.replicate numTags 0, [], fun _ => Nil⟩

/-- Sign extension of a byte, the value of a (signed) char. -/
def sxt8 (n : Nat) : Int :=
  if n % 256 < 128 then ((n % 256 : Nat) : Int) else ((n % 256 : Nat) : Int) - 256

/-- The accumulating loop of string_hash: c = (c << 1) + 1 truncated back
into a char, then sum += c + (c << (k++ % 6)). -/
def string_hash_aux : List Nat → Nat → Int → Int
  | [], _, sum => sum
  | c0 :: rest, k, sum =>
    let c1 : Int := sxt8 ((2 * sxt8 c0 + 1) % 256).toNat
    string_hash_aux rest (k + 1) (sum + c1 + c1 * 2 ^ (k % 6))

/-- NameToTagTable::string_hash: abs((sum + 261) >> 1) with the
arithmetic right shift of the signed sum. -/
def string_hash (s : List Nat) : Nat :=
  ((string_hash_aux s 0 0 + 261).fdiv 2).natAbs

/-- The C string stored in the flat buffer at an offset: bytes up to the
NUL terminator. -/
def cstrAt (buf : List Nat) (off : Nat) : List Nat :=
  (buf.drop off).takeWhile (fun c => c ≠ 0)

/-- The bucket-chain walk shared by NameToTagTable::get and put: follow
link from the bucket head, exiting at Nil or at an entry whose stored
name compares strcmp-equal.  The loop body of the source never advances
link, which the embedding reproduces verbatim; fuel counts loop
iterations and a none result means the loop is still running after that
many iterations. -/
def chainFind (entries : List Entry) (names : List Nat) (name : List Nat) :
    Nat → Int → Option (Option Entry)
  | fuel, link =>
    if link = Nil then some none
    else
      match fuel with
      | 0 => none
      | fuel' + 1 =>
        match entries.get? link.toNat with
        | none => none
        | some e =>
          if cstrAt names e.name = name then some (some e)
          else chainFind entries names name fuel' link

/-- at_grow(idx, 0): extend the list with zeros so that index idx exists. -/
def growTo (l : List Nat) (idx : Nat) : List Nat :=
  l ++ List.replicate (idx + 1 - l.length) 0

/-- memcpy of a name into the buffer at an offset. -/
def overwriteAt (l : List Nat) (i : Nat) (repl : List Nat) : List Nat :=
  l.take i ++ repl ++ l.drop (i + repl.length)

/-- NameToTagTable::get: mtNone when the chain exits at Nil. -/
def ntt_get (t : Table) (name : List Nat) (fuel : Nat) : Option Nat :=
  let bucket := string_hash name % nr_of_buckets
  (chainFind t.entries t.names name fuel (t.table bucket)).map
    (fun r => match r with | some e => e.tag | none => 0)

/-- NameToTagTable::put: return the existing offset on a strcmp hit,
otherwise append the name (NUL-terminated) to the buffer, push a new
entry chained onto the bucket and point the bucket at it. -/
def ntt_put (t : Table) (tag : Nat) (name : List Nat) (fuel : Nat) :
    Option (Table × Nat) :=
  let bucket := string_hash name % nr_of_buckets
  match chainFind t.entries t.names name fuel (t.table bucket) with
  | none => none
  | some (some e) => some (t, e.name)
  | some none =>
    let i := t.names.length
    let names2 := overwriteAt (growTo t.names (i + name.length)) i name
    let entries2 := t.entries ++ [⟨i, tag, t.table bucket⟩]
    let table2 := fun j => if j = bucket then ((entries2.length - 1 : Nat) : Int) else t.table j
    some ({ t with names := names2, entries := entries2, table := table2 }, i)

/-- MemTagNameTable::put_when_absent: installs both mappings when the
tag-to-name array does not cover the tag yet.  The tag passed on to the
name-to-tag table goes through the MemTag cast and is truncated to the
byte-sized tag type. -/
def put_when_absent (t : Table) (tag : Nat) (name : List Nat) (fuel : Nat) :
    Option Table :=
  if t.tag_to_name.length ≤ tag then
    match ntt_put t (tag % 256) name fuel with
    | none => none
    | some (t2, name_ref) =>
      some { t2 with tag_to_name := (growTo t2.tag_to_name tag).set tag name_ref }
  else some t

/-- MemTagNameTable::make_tag: existing tag if the name resolves,
otherwise install the next integer and return it through the MemTag
cast, which truncates it to the byte-sized tag type. -/
def make_tag (t : Table) (name : List Nat) (fuel : Nat) : Option (Table × Nat) :=
  match ntt_get t name fuel with
  | none => none
  | some mt =>
    if mt = 0 then
      let len := t.tag_to_name.length
      match put_when_absent t len name fuel with
      | none => none
      | some t2 => some (t2, len % 256)
    else some (t, mt)

/-- Sequential make_tag calls, collecting the returned tags in order. -/
def makeTags (t : Table) (fuel : Nat) : List (List Nat) → Option (Table × List Nat)
  | [] => some (t, [])
  | n :: rest =>
    match make_tag t n fuel with
    | none => none
    | some (t2, tag) =>
      match makeTags t2 fuel rest with
      | none => none
      | some (tF, tags) => some (tF, tag :: tags)

/-- Three fresh two-byte names falling into pairwise-distinct hash
buckets (138, 141 and 144). -/
def overflowNames : List (List Nat) := [[1, 1], [1, 2], [1, 3]]

/-- The table state reached from a table with one predefined tag after
registering the name 04 01, whose bucket is 144. -/
def oneEntryTable : Table :=
  ((make_tag (mkTable 1) [4, 1] 9).getD (mkTable 1, 0)).1

end MemTagNameTable

/-- A treap over two distinct keys 10 and 20 whose root (key 10,
priority 5) holds key 20 in its right child (priority 3): a well-formed
max-heap-ordered search tree. -/
def twoNodeTreap : Treap Nat :=
  .node .leaf 10 100 5 (.node .leaf 20 200 3 .leaf)

end NMT

/-! Theorems.  Each claim is settled below against the embedding above;
helper lemmas precede the per-claim theorems that use them. -/

namespace NMT

set_option maxRecDepth 4000

open VMATree in
/-- C1.  Reserve of [0, 100) with tag 7 followed by commit of [0, 50)
yields the three expected nodes with the committed interval inheriting
tag 7, and diffs of reserve 100 then reserve 50, commit 50: the second
operation adds the committed bytes to the reserved total again, so the
accumulated reserved total is 150, not the claimed 100.  The draft's
SummaryDiff subtracts old contributions only for deleted middle nodes
(none here) and carries no per-tag breakdown at all. -/
theorem partial_commit_reserved_total_not_adjusted :
    partialCommitTrace = some
      ([(0, ⟨.Released, .Committed, ⟨9, 7⟩⟩), (50, ⟨.Committed, .Reserved, ⟨5, 7⟩⟩),
        (100, ⟨.Reserved, .Released, ⟨0, 0⟩⟩)], ⟨100, 0⟩, ⟨50, 50⟩) ∧
    (partialCommitTrace.map fun p => p.2.1.reserve + p.2.2.reserve) = some 150 ∧
    some (150 : Int) ≠ some (100 : Int) := by
  refine ⟨by decide, by decide, by decide⟩

open VMATree in
/-- C2.  After reserve [0, 100) with tagged metadata and release [0, 200),
the node at 100 survives (the sweep pushes no children when it pops the
node whose key equals A) while the node at 0 now reads released on both
sides, so the consecutive pair (0, 100) has out Released against in
Reserved: invariant I2 fails for this operation sequence. -/
theorem sweep_skip_breaks_adjacent_invariant :
    releaseWiderTrace = some
      [(0, ⟨.Released, .Released, ⟨0, 0⟩⟩), (100, ⟨.Reserved, .Released, ⟨0, 0⟩⟩),
       (200, ⟨.Released, .Reserved, ⟨5, 7⟩⟩)] ∧
    (releaseWiderTrace.map adjacentMatched) = some false := by
  refine ⟨by decide, by decide⟩

open VMATree in
/-- C3.  Reserving [10, 50) strictly inside the already-reserved
[0, 100) with identical metadata inserts a node at 50 whose in and out
states are both Reserved and whose metadata equals that of the enclosing
interval: a pure no-op node, stored because the B-insert condition keys
on the inherited metadata differing from the default-constructed
metadata rather than on the node being a no-op. -/
theorem b_insert_creates_noop_node :
    reserveInsideTrace = some
      [(0, ⟨.Released, .Reserved, ⟨5, 7⟩⟩), (50, ⟨.Reserved, .Reserved, ⟨5, 7⟩⟩),
       (100, ⟨.Reserved, .Released, ⟨0, 0⟩⟩)] ∧
    (reserveInsideTrace.map (noNoopNodes emptyRegionData)) = some false := by
  refine ⟨by decide, by decide⟩

open VMATree in
/-- C4.  Reserve [0, 100) with tagged metadata then release [0, 100)
leaves three nodes (including a duplicated key 100, since the sweep
never visits the node at 100 and the subsequent upsert fails to find it),
and the release returns an all-zero diff, leaving the accumulated
reserved total at 100 instead of zero. -/
theorem reserve_release_not_clean :
    reserveReleaseTrace = some
      ([(0, ⟨.Released, .Released, ⟨0, 0⟩⟩), (100, ⟨.Reserved, .Released, ⟨0, 0⟩⟩),
        (100, ⟨.Released, .Reserved, ⟨5, 7⟩⟩)], ⟨100, 0⟩, ⟨0, 0⟩) ∧
    (reserveReleaseTrace.map fun p => p.1.length) = some 3 ∧
    (reserveReleaseTrace.map fun p => p.2.1.reserve + p.2.2.reserve) = some 100 ∧
    some (100 : Int) ≠ some (0 : Int) := by
  refine ⟨by decide, by decide, by decide, by decide⟩

open VMATree in
/-- C5.  Reserving [0, 100) and then [100, 200) with the identical
tagged metadata keeps the middle node at 100 (rewritten to a Reserved to
Reserved no-op, because its own stored metadata is the empty end-node
metadata and thus not equivalent to the reservation's), producing three
nodes, whereas the single reservation of [0, 200) produces the expected
two; the two trees differ. -/
theorem adjacent_reserve_does_not_merge :
    adjacentReserveTrace = some
      [(0, ⟨.Released, .Reserved, ⟨5, 7⟩⟩), (100, ⟨.Reserved, .Reserved, ⟨5, 7⟩⟩),
       (200, ⟨.Reserved, .Released, ⟨0, 0⟩⟩)] ∧
    singleReserveTrace = some
      [(0, ⟨.Released, .Reserved, ⟨5, 7⟩⟩), (200, ⟨.Reserved, .Released, ⟨0, 0⟩⟩)] ∧
    adjacentReserveTrace ≠ singleReserveTrace := by
  refine ⟨by decide, by decide, by decide⟩

/-- C6.  On a valid treap with pairwise-distinct keys 10 and 20 in which
the node keyed 20 is not the root of the LEQ-split part, upsert of key 20
inserts a second node keyed 20 instead of overwriting the existing one:
find, descending left on smaller keys and right on larger ones, cannot
locate the equal key, so the tree ends with two nodes keyed 20. -/
theorem upsert_duplicates_existing_key :
    Treap.keysSorted twoNodeTreap = true ∧
    Treap.heapOrdered twoNodeTreap = true ∧
    Treap.upsertF 10 twoNodeTreap 20 999 1 = some
      (.node .leaf 10 100 5 (.node .leaf 20 200 3 (.node .leaf 20 999 1 .leaf)), true) ∧
    ((Treap.upsertF 10 twoNodeTreap 20 999 1).map fun p => p.1.countKey 20) = some 2 ∧
    some 2 ≠ some 1 := by
  refine ⟨by decide, by decide, by decide, by decide, by decide⟩

open VMATree in
/-- C7, counterexample.  register_mapping(10, 10, Reserved, default) on
the empty tree returns the zero diff but inserts a node at 10: the node
set changes from empty to a one-node listing, refuting the claim that an
empty-range call leaves the tree unchanged. -/
theorem empty_range_inserts_node :
    (emptyRangeTrace.map fun r => r.1.tree.inorder) = some
      [(10, ⟨.Reserved, .Released, ⟨0, 0⟩⟩)] ∧
    emptyVMA.tree.inorder = ([] : List (Nat × State)) ∧
    some [(10, (⟨.Reserved, .Released, ⟨0, 0⟩⟩ : State))] ≠
      some ([] : List (Nat × State)) := by
  refine ⟨by decide, by decide, by decide⟩

open MemTagNameTable in
/-- C9.  Starting from a table holding 255 predefined tags, three fresh
names (in pairwise-distinct, empty buckets) receive tags 255, 0 and 1:
once the count of registered names exceeds what the byte-sized tag type
represents, make_tag keeps assigning, returning the next integer
truncated modulo 256 -- tag 1 for the third name, an already-assigned
tag rather than the sentinel None, with no overflow detection. -/
theorem make_tag_overflow_wraps :
    (makeTags (mkTable 255) 4 overflowNames).map
      (fun p => (p.2, p.1.tag_to_name.length)) = some ([255, 0, 1], 258) ∧
    (1 : Nat) ≠ 0 := by
  refine ⟨by decide, by decide⟩

end NMT

namespace NMT

namespace VMATree

theorem accountF_nil (st : TreapCHeap State) (prev : Nat) (d : SummaryDiff) :
    accountF st [] prev d = some (st, d) := rfl

theorem sub64_self (a : Nat) : sub64 a a = 0 := by
  simp [sub64, Nat.add_sub_cancel_left]

theorem sweepF_self_dl (a : Nat) (mrg : RegionData → RegionData → RegionData) :
    ∀ (fuel : Nat) (tree : VTreap) (stack : List (List Dir)) (stB : State) (bni : Bool)
      (dl : List (Nat × InOut × InOut)) (r : SweepResult),
      sweepF a a mrg fuel tree stack stB bni dl = some r → r.dl = dl := by
  intro fuel
  induction fuel with
  | zero =>
    intro tree stack stB bni dl r h
    simp [sweepF] at h
  | succ fuel ih =>
    intro tree stack stB bni dl r h
    cases stack with
    | nil =>
      simp only [sweepF] at h
      cases h
      rfl
    | cons path rest =>
      simp only [sweepF] at h
      split at h
      · exact ih _ _ _ _ _ _ h
      · split at h
        · cases h; rfl
        · split at h
          · rename_i hgt hand
            exact absurd hand.1 hgt
          · split at h
            · exact ih _ _ _ _ _ _ h
            · exact ih _ _ _ _ _ _ h

/-- C7, amended.  An empty-range call register_mapping(A, A, state,
metadata) always returns the all-zero SummaryDiff (whenever its loops
terminate): with A equal to B the sweep can schedule no deletion, so the
accounting loop runs over an empty worklist and the final contribution
of the new interval is B minus A, zero bytes.  The tree, however, may
change, as the counterexample shows. -/
theorem empty_range_zero_diff (st : TreapCHeap State) (a : Nat) (state : InOut)
    (md : RegionData) (mrg : RegionData → RegionData → RegionData)
    (res : TreapCHeap State × SummaryDiff)
    (h : register_mapping st a a state md mrg = some res) : res.2 = ⟨0, 0⟩ := by
  rw [register_mapping] at h
  split at h
  · exact Option.noConfusion h
  · split at h
    · exact Option.noConfusion h
    · rename_i sres heqS
      have hdl : sres.dl = [] := sweepF_self_dl a mrg _ _ _ _ _ _ _ heqS
      split at h
      · exact Option.noConfusion h
      · split at h
        · exact Option.noConfusion h
        · rename_i st4 diff heqAcc
          rw [hdl, accountF_nil] at heqAcc
          cases heqAcc
          cases h
          cases state <;> simp [sub64_self]

/-- C7 witness: the empty-range call of the counterexample evaluates to a
concrete result whose diff the theorem then shows to be zero. -/
theorem empty_range_zero_diff_witness :
    register_mapping emptyVMA 10 10 InOut.Reserved emptyRegionData no_merge =
      some (⟨.node .leaf 10 ⟨.Reserved, .Released, ⟨0, 0⟩⟩ 31115191433589 .leaf,
            31115191433589⟩, ⟨0, 0⟩) ∧
    ((⟨Treap.node .leaf 10 ⟨InOut.Reserved, InOut.Released, ⟨0, 0⟩⟩ 31115191433589 .leaf,
       31115191433589⟩, (⟨0, 0⟩ : SummaryDiff)) : TreapCHeap State × SummaryDiff).2 = ⟨0, 0⟩ :=
  ⟨by decide,
   empty_range_zero_diff emptyVMA 10 InOut.Reserved emptyRegionData no_merge _ (by decide)⟩

end VMATree

end NMT

namespace NMT

namespace NativeCallStackStorage

theorem get_eq_chunkSlot (st : Storage) (c sl : Nat) :
    get st (c, sl) = chunkSlot st.stack_chunks c sl := rfl

theorem chunkSlot_cons_zero (ch : NCSChunk) (rest : List NCSChunk) (sl : Nat) :
    chunkSlot (ch :: rest) 0 sl = ch sl := rfl

theorem chunkSlot_cons_succ (ch : NCSChunk) (rest : List NCSChunk) (j sl : Nat) :
    chunkSlot (ch :: rest) (j + 1) sl = chunkSlot rest j sl := rfl

theorem writeSlot_preserves (ch : NCSChunk) (i : Nat) (s : NCStack) (hch : ch i = none)
    (sl : Nat) (v : NCStack) (hv : ch sl = some v) : writeSlot ch i s sl = some v := by
  unfold writeSlot
  by_cases hsl : sl = i
  · rw [hsl] at hv; rw [hch] at hv; exact Option.noConfusion hv
  · rw [if_neg hsl]; exact hv

theorem pushScan_spec (idx : Nat) (s : NCStack) :
    ∀ (chunks cs : List NCSChunk) (i : Nat),
      pushScan idx s chunks = some (cs, i) →
      (∀ j sl v, chunkSlot chunks j sl = some v → chunkSlot cs j sl = some v) ∧
      chunkSlot cs i idx = some s ∧
      (∀ j, j < i → ∃ v, chunkSlot chunks j idx = some v ∧ v ≠ s) := by
  intro chunks
  induction chunks with
  | nil => intro cs i h; simp [pushScan] at h
  | cons ch rest ih =>
    intro cs i h
    simp only [pushScan] at h
    split at h
    · -- slot empty: write here
      rename_i hslot
      cases h
      refine ⟨?_, ?_, ?_⟩
      · intro j sl v hv
        match j with
        | 0 =>
          rw [chunkSlot_cons_zero] at hv ⊢
          exact writeSlot_preserves ch idx s hslot sl v hv
        | j + 1 =>
          rw [chunkSlot_cons_succ] at hv ⊢
          exact hv
      · rw [chunkSlot_cons_zero]
        unfold writeSlot
        simp
      · intro j hj
        exact absurd hj (Nat.not_lt_zero j)
    · -- slot holds t
      rename_i t hslot
      split at h
      · -- t = s
        rename_i hts
        cases h
        refine ⟨fun j sl v hv => hv, ?_, ?_⟩
        · rw [chunkSlot_cons_zero, hslot, hts]
        · intro j hj
          exact absurd hj (Nat.not_lt_zero j)
      · -- t ≠ s: recurse
        rename_i hts
        cases hrec : pushScan idx s rest with
        | none => rw [hrec] at h; exact Option.noConfusion h
        | some p =>
          rw [hrec] at h
          cases h
          obtain ⟨hpres, hat, hbefore⟩ := ih p.1 p.2 (by rw [hrec])
          refine ⟨?_, ?_, ?_⟩
          · intro j sl v hv
            match j with
            | 0 => exact hv
            | j + 1 =>
              rw [chunkSlot_cons_succ] at hv ⊢
              exact hpres j sl v hv
          · rw [chunkSlot_cons_succ]
            exact hat
          · intro j hj
            match j with
            | 0 => exact ⟨t, by rw [chunkSlot_cons_zero, hslot], hts⟩
            | j + 1 =>
              rw [chunkSlot_cons_succ]
              exact hbefore j (Nat.lt_of_succ_lt_succ hj)

theorem pushScan_none_spec (idx : Nat) (s : NCStack) :
    ∀ chunks, pushScan idx s chunks = none →
      ∀ j, j < chunks.length → ∃ v, chunkSlot chunks j idx = some v ∧ v ≠ s := by
  intro chunks
  induction chunks with
  | nil => intro _ j hj; exact absurd hj (Nat.not_lt_zero j)
  | cons ch rest ih =>
    intro h j hj
    simp only [pushScan] at h
    split at h
    · exact Option.noConfusion h
    · rename_i t hslot
      split at h
      · exact Option.noConfusion h
      · rename_i hts
        cases hrec : pushScan idx s rest with
        | some p => rw [hrec] at h; exact Option.noConfusion h
        | none =>
          match j with
          | 0 => exact ⟨t, by rw [chunkSlot_cons_zero, hslot], hts⟩
          | j + 1 =>
            rw [chunkSlot_cons_succ]
            exact ih hrec j (Nat.lt_of_succ_lt_succ hj)

theorem pushScan_of_found (idx : Nat) (s : NCStack) :
    ∀ (chunks : List NCSChunk) (c : Nat),
      chunkSlot chunks c idx = some s →
      (∀ j, j < c → ∃ v, chunkSlot chunks j idx = some v ∧ v ≠ s) →
      pushScan idx s chunks = some (chunks, c) := by
  intro chunks
  induction chunks with
  | nil =>
    intro c hc _
    simp [chunkSlot] at hc
  | cons ch rest ih =>
    intro c hc hbefore
    match c with
    | 0 =>
      rw [chunkSlot_cons_zero] at hc
      simp [pushScan, hc]
    | c + 1 =>
      obtain ⟨v, hv, hvs⟩ := hbefore 0 (Nat.succ_pos c)
      rw [chunkSlot_cons_zero] at hv
      rw [chunkSlot_cons_succ] at hc
      simp only [pushScan, hv]
      rw [if_neg hvs]
      rw [ih c hc (fun j hj => by
        have := hbefore (j + 1) (Nat.succ_lt_succ hj)
        rwa [chunkSlot_cons_succ] at this)]
      rfl

theorem push_detailed (st : Storage) (s : NCStack) :
    (push st s).1.is_detailed_mode = st.is_detailed_mode := by
  unfold push
  split
  · rfl
  · split <;> rfl

theorem get_append_of_get (chunks : List NCSChunk) (extra : List NCSChunk) (j sl : Nat)
    (v : NCStack) (hv : chunkSlot chunks j sl = some v) :
    chunkSlot (chunks ++ extra) j sl = some v := by
  unfold chunkSlot at hv ⊢
  cases hg : chunks.get? j with
  | none => rw [hg] at hv; exact Option.noConfusion hv
  | some ch =>
    rw [hg] at hv
    have hlt : j < chunks.length := by
      by_contra hge
      rw [List.get?_eq_none.mpr (Nat.le_of_not_lt hge)] at hg
      exact Option.noConfusion hg
    rw [List.get?_append hlt, hg]
    exact hv

theorem push_preserves (st : Storage) (s : NCStack) : Preserves st (push st s).1 := by
  intro c sl v hv
  unfold push
  split
  · exact hv
  · split
    · rename_i cs i hscan
      obtain ⟨hpres, _, _⟩ := pushScan_spec _ s st.stack_chunks cs i hscan
      exact hpres c sl v hv
    · exact get_append_of_get st.stack_chunks _ c sl v hv

theorem push_placed (st : Storage) (s : NCStack) (hdet : st.is_detailed_mode = true) :
    ∃ c sl, (push st s).2 = mkStackIndex c sl ∧ Placed (push st s).1 s c sl := by
  have hcond : ¬(st.is_detailed_mode = false) := by simp [hdet]
  unfold push
  rw [if_neg hcond]
  split
  · rename_i cs i hscan
    obtain ⟨hpres, hat, hbefore⟩ := pushScan_spec _ s st.stack_chunks cs i hscan
    refine ⟨i, calculate_hash s % static_chunk_size, rfl, rfl, hat, ?_⟩
    intro j hj
    obtain ⟨v, hv, hvs⟩ := hbefore j hj
    exact ⟨v, hpres j _ v hv, hvs⟩
  · rename_i hscan
    refine ⟨st.stack_chunks.length, calculate_hash s % static_chunk_size, rfl, rfl, ?_, ?_⟩
    · rw [get_eq_chunkSlot]
      unfold chunkSlot
      simp only
      rw [List.get?_append_right (Nat.le_refl _), Nat.sub_self]
      simp [writeSlot]
    · intro j hj
      obtain ⟨v, hv, hvs⟩ := pushScan_none_spec _ s st.stack_chunks hscan j hj
      exact ⟨v, get_append_of_get st.stack_chunks _ j _ v hv, hvs⟩

theorem push_of_placed (st : Storage) (s : NCStack) (c sl : Nat)
    (hdet : st.is_detailed_mode = true) (hp : Placed st s c sl) :
    push st s = (st, mkStackIndex c sl) := by
  obtain ⟨hsl, hat, hbefore⟩ := hp
  have hcond : ¬(st.is_detailed_mode = false) := by simp [hdet]
  unfold push
  rw [if_neg hcond]
  have hscan : pushScan (calculate_hash s % static_chunk_size) s st.stack_chunks =
      some (st.stack_chunks, c) := by
    apply pushScan_of_found
    · rw [← hsl]; exact hat
    · intro j hj
      obtain ⟨v, hv, hvs⟩ := hbefore j hj
      exact ⟨v, by rw [← hsl]; exact hv, hvs⟩
  rw [hscan]
  subst hsl
  rfl

theorem get_some_chunk_lt (st : Storage) (c sl : Nat) (v : NCStack)
    (h : get st (c, sl) = some v) : c < st.stack_chunks.length := by
  rw [get_eq_chunkSlot] at h
  unfold chunkSlot at h
  by_contra hge
  rw [List.get?_eq_none.mpr (Nat.le_of_not_lt hge)] at h
  exact Option.noConfusion h

theorem preserves_rfl (st : Storage) : Preserves st st := fun _ _ _ h => h

theorem preserves_trans {s1 s2 s3 : Storage} (h12 : Preserves s1 s2) (h23 : Preserves s2 s3) :
    Preserves s1 s3 := fun c sl v h => h23 c sl v (h12 c sl v h)

theorem pushAll_preserves (ss : List NCStack) : ∀ st : Storage, Preserves st (pushAll st ss).1 := by
  induction ss with
  | nil => intro st; exact preserves_rfl st
  | cons s rest ih =>
    intro st
    exact preserves_trans (push_preserves st s) (ih (push st s).1)

theorem pushAll_detailed (ss : List NCStack) : ∀ st : Storage,
    (pushAll st ss).1.is_detailed_mode = st.is_detailed_mode := by
  induction ss with
  | nil => intro _; rfl
  | cons s rest ih =>
    intro st
    rw [pushAll]
    simp only
    rw [ih (push st s).1, push_detailed]

theorem placed_preserved {st st2 : Storage} {s : NCStack} {c sl : Nat}
    (hp : Placed st s c sl) (hpre : Preserves st st2) : Placed st2 s c sl := by
  obtain ⟨hsl, hat, hbefore⟩ := hp
  refine ⟨hsl, hpre c sl s hat, ?_⟩
  intro j hj
  obtain ⟨v, hv, hvs⟩ := hbefore j hj
  exact ⟨v, hpre j sl v hv, hvs⟩

theorem pushAll_nth_placed (ss : List NCStack) : ∀ (st : Storage) (n : Nat) (s : NCStack),
    st.is_detailed_mode = true → ss.get? n = some s →
    ∃ c sl, (pushAll st ss).2.get? n = some (mkStackIndex c sl) ∧
      Placed (pushAll st ss).1 s c sl := by
  induction ss with
  | nil => intro st n s _ hn; simp at hn
  | cons s0 rest ih =>
    intro st n s hdet hn
    match n with
    | 0 =>
      rw [List.get?_cons_zero] at hn
      injection hn with hs
      subst hs
      obtain ⟨c, sl, hidx, hpl⟩ := push_placed st s0 hdet
      refine ⟨c, sl, ?_, placed_preserved hpl (pushAll_preserves rest (push st s0).1)⟩
      show ((push st s0).2 :: (pushAll (push st s0).1 rest).2).get? 0 = some (mkStackIndex c sl)
      rw [List.get?_cons_zero, hidx]
    | n + 1 =>
      rw [List.get?_cons_succ] at hn
      obtain ⟨c, sl, hidx, hplaced⟩ := ih (push st s0).1 n s (by rw [push_detailed, hdet]) hn
      exact ⟨c, sl, hidx, hplaced⟩

theorem pushAll_dup_idx (ss : List NCStack) : ∀ (st : Storage) (m : Nat) (s : NCStack) (c sl : Nat),
    st.is_detailed_mode = true → Placed st s c sl → ss.get? m = some s →
    (pushAll st ss).2.get? m = some (mkStackIndex c sl) := by
  induction ss with
  | nil => intro st m s c sl _ _ hm; simp at hm
  | cons s0 rest ih =>
    intro st m s c sl hdet hp hm
    match m with
    | 0 =>
      rw [List.get?_cons_zero] at hm
      injection hm with hs
      subst hs
      have heq := push_of_placed st s0 c sl hdet hp
      show ((push st s0).2 :: (pushAll (push st s0).1 rest).2).get? 0 = some (mkStackIndex c sl)
      rw [heq]
      rfl
    | m + 1 =>
      rw [List.get?_cons_succ] at hm
      have hp2 : Placed (push st s0).1 s c sl := placed_preserved hp (push_preserves st s0)
      exact ih (push st s0).1 m s c sl (by rw [push_detailed, hdet]) hp2 hm

/-- C8, amended.  In detailed mode push deduplicates and, as long as the
storage never outgrows the uint16_t chunk range (at most 2^16 chunks),
get is faithful: over any sequence of pushes from the freshly constructed
storage, when the stack pushed at step k equals the stack pushed at an
earlier step j, the returned StackIndex pairs are equal (same chunk, same
slot), and get on that index in the final storage returns the pushed
stack.  The equal-index half needs no bound -- equal stacks resolve to the
same chunk ordinal before narrowing -- but once more than 2^16 chunks
exist the narrowed ordinal names the wrong chunk, as the counterexample
shows. -/
theorem push_dedup (ss : List NCStack) (j k : Nat) (s : NCStack) (hjk : j < k)
    (hj : ss.get? j = some s) (hk : ss.get? k = some s)
    (hbound : (pushAll (mkStorage true) ss).1.stack_chunks.length ≤ 2 ^ 16) :
    (pushAll (mkStorage true) ss).2.getD j (0, 0) = (pushAll (mkStorage true) ss).2.getD k (0, 0) ∧
    get (pushAll (mkStorage true) ss).1 ((pushAll (mkStorage true) ss).2.getD k (0, 0)) = some s := by
  have main : ∀ (ss : List NCStack) (st : Storage) (j k : Nat),
      st.is_detailed_mode = true → j < k → ss.get? j = some s → ss.get? k = some s →
      ∃ c sl, (pushAll st ss).2.get? j = some (mkStackIndex c sl) ∧
        (pushAll st ss).2.get? k = some (mkStackIndex c sl) ∧ Placed (pushAll st ss).1 s c sl := by
    intro ss
    induction ss with
    | nil => intro st j k _ _ hj _; simp at hj
    | cons s0 rest ih =>
      intro st j k hdet hjk hj hk
      match j, k with
      | 0, k + 1 =>
        rw [List.get?_cons_zero] at hj
        injection hj with hs
        subst hs
        rw [List.get?_cons_succ] at hk
        obtain ⟨c, sl, hidx, hplaced1⟩ := push_placed st s0 hdet
        have hidx2 := pushAll_dup_idx rest (push st s0).1 k s0 c sl
          (by rw [push_detailed, hdet]) hplaced1 hk
        refine ⟨c, sl, ?_, hidx2, ?_⟩
        · show ((push st s0).2 :: (pushAll (push st s0).1 rest).2).get? 0 =
            some (mkStackIndex c sl)
          rw [List.get?_cons_zero, hidx]
        · exact placed_preserved hplaced1 (pushAll_preserves rest (push st s0).1)
      | j + 1, k + 1 =>
        rw [List.get?_cons_succ] at hj hk
        obtain ⟨c, sl, h1, h2, h3⟩ := ih (push st s0).1 j k (by rw [push_detailed, hdet])
          (Nat.lt_of_succ_lt_succ hjk) hj hk
        exact ⟨c, sl, h1, h2, h3⟩
  obtain ⟨c, sl, h1, h2, h3⟩ := main ss (mkStorage true) j k rfl hjk hj hk
  have hcfit : c < 2 ^ 16 :=
    Nat.lt_of_lt_of_le (get_some_chunk_lt _ c sl s h3.2.1) hbound
  have hslfit : sl < 2 ^ 16 := by
    rw [h3.1]
    have hm := Nat.mod_lt (calculate_hash s) (show 0 < static_chunk_size by decide)
    have hsz : static_chunk_size < 2 ^ 16 := by decide
    omega
  have hmk : mkStackIndex c sl = (c, sl) := by
    unfold mkStackIndex
    rw [Nat.mod_eq_of_lt hcfit, Nat.mod_eq_of_lt hslfit]
  constructor
  · rw [List.getD_eq_get?, List.getD_eq_get?, h1, h2]
  · rw [List.getD_eq_get?, h2]
    simp only [Option.getD_some]
    rw [hmk]
    exact h3.2.1

/-- C8 witness: pushing the stacks 01, 02, 01 in order (one chunk ever
allocated), the third push returns the index of the first and get yields
the stack. -/
theorem push_dedup_witness :
    (0 : Nat) < 2 ∧ ([[1], [2], [1]] : List NCStack).get? 0 = some [1] ∧
    ([[1], [2], [1]] : List NCStack).get? 2 = some [1] ∧
    (pushAll (mkStorage true) [[1], [2], [1]]).1.stack_chunks.length ≤ 2 ^ 16 ∧
    ((pushAll (mkStorage true) [[1], [2], [1]]).2.getD 0 (0, 0) =
       (pushAll (mkStorage true) [[1], [2], [1]]).2.getD 2 (0, 0) ∧
     get (pushAll (mkStorage true) [[1], [2], [1]]).1
       ((pushAll (mkStorage true) [[1], [2], [1]]).2.getD 2 (0, 0)) = some [1]) :=
  ⟨by decide, rfl, rfl, by decide,
   push_dedup [[1], [2], [1]] 0 2 [1] (by decide) rfl rfl (by decide)⟩

theorem pushAll_singleton (st : Storage) (s : NCStack) :
    pushAll st [s] = ((push st s).1, [(push st s).2]) := rfl

theorem pushScan_all_reject (idx : Nat) (s : NCStack) :
    ∀ chunks : List NCSChunk,
      (∀ j, j < chunks.length → ∃ v, chunkSlot chunks j idx = some v ∧ v ≠ s) →
      pushScan idx s chunks = none := by
  intro chunks
  induction chunks with
  | nil => intro _; rfl
  | cons ch rest ih =>
    intro hall
    obtain ⟨v, hv, hvs⟩ := hall 0 (Nat.succ_pos _)
    rw [chunkSlot_cons_zero] at hv
    simp only [pushScan, hv]
    rw [if_neg hvs]
    rw [ih (fun j hj => by
      have := hall (j + 1) (Nat.succ_lt_succ hj)
      rwa [chunkSlot_cons_succ] at this)]
    rfl

theorem pushAll_append (xs ys : List NCStack) : ∀ st : Storage,
    pushAll st (xs ++ ys) =
      ((pushAll (pushAll st xs).1 ys).1,
       (pushAll st xs).2 ++ (pushAll (pushAll st xs).1 ys).2) := by
  induction xs with
  | nil => intro st; simp [pushAll]
  | cons x xs ih =>
    intro st
    simp only [List.cons_append, pushAll, List.append_eq]
    rw [ih (push st x).1]

theorem chunkSlot_append_last (l : List NCSChunk) (c : NCSChunk) (sl m : Nat)
    (hm : m = l.length) : chunkSlot (l ++ [c]) m sl = c sl := by
  subst hm
  unfold chunkSlot
  rw [List.get?_append_right (Nat.le_refl _), Nat.sub_self]
  rfl

theorem pushAll_snoc_of_placed (st : Storage) (s : NCStack) (c sl : Nat)
    (hdet : st.is_detailed_mode = true) (hp : Placed st s c sl) :
    pushAll st [s] = (st, [mkStackIndex c sl]) := by
  rw [pushAll_singleton, push_of_placed st s c sl hdet hp]

theorem pushAll_snoc_split (st : Storage) (xs : List NCStack) (s : NCStack) (c sl : Nat)
    (hdet : (pushAll st xs).1.is_detailed_mode = true)
    (hp : Placed (pushAll st xs).1 s c sl) :
    pushAll st (xs ++ [s]) =
      ((pushAll st xs).1, (pushAll st xs).2 ++ [mkStackIndex c sl]) := by
  rw [pushAll_append, pushAll_snoc_of_placed _ s c sl hdet hp]

theorem prod_eq_fst {α β : Type} {p : α × β} {a : α} {b : β} (h : p = (a, b)) : p.1 = a := by
  rw [h]

theorem prod_eq_snd {α β : Type} {p : α × β} {a : α} {b : β} (h : p = (a, b)) : p.2 = b := by
  rw [h]

theorem wrapStack_hash (i : Nat) : calculate_hash (wrapStack i) % static_chunk_size = 1 := by
  show (0 * 31 + 256 * i + 1) % 256 = 1
  omega

theorem wrapStack_ne (i j : Nat) (h : i ≠ j) : wrapStack i ≠ wrapStack j := by
  unfold wrapStack
  intro hEq
  injection hEq with h1 _
  exact h (by omega)

theorem wrapRange_spec : ∀ n, 1 ≤ n →
    (pushAll (mkStorage true) (wrapRange n)).1.stack_chunks.length = n ∧
    (pushAll (mkStorage true) (wrapRange n)).1.is_detailed_mode = true ∧
    (∀ i, i < n →
      chunkSlot (pushAll (mkStorage true) (wrapRange n)).1.stack_chunks i 1 =
        some (wrapStack i)) ∧
    (pushAll (mkStorage true) (wrapRange n)).2 =
      (List.range n).map (fun i => mkStackIndex i 1) := by
  intro n
  induction n with
  | zero => intro h; omega
  | succ n ih =>
    intro _
    match n, ih with
    | 0, _ =>
      refine ⟨rfl, rfl, ?_, rfl⟩
      intro i hi
      have hi0 : i = 0 := by omega
      subst hi0
      rfl
    | n + 1, ih =>
      obtain ⟨hlen, hdet, hslots, hidxs⟩ := ih (by omega)
      have hsplitList : wrapRange (n + 1 + 1) = wrapRange (n + 1) ++ [wrapStack (n + 1)] := by
        unfold wrapRange
        rw [List.range_succ, List.map_append]
        rfl
      have hrej : pushScan 1 (wrapStack (n + 1))
          (pushAll (mkStorage true) (wrapRange (n + 1))).1.stack_chunks = none := by
        apply pushScan_all_reject
        intro j hj
        rw [hlen] at hj
        exact ⟨wrapStack j, hslots j hj, wrapStack_ne j (n + 1) (by omega)⟩
      have hpush : push (pushAll (mkStorage true) (wrapRange (n + 1))).1 (wrapStack (n + 1)) =
          (⟨(pushAll (mkStorage true) (wrapRange (n + 1))).1.stack_chunks ++
              [writeSlot emptyChunk 1 (wrapStack (n + 1))], true⟩,
           mkStackIndex (n + 1) 1) := by
        have hcond : ¬((pushAll (mkStorage true) (wrapRange (n + 1))).1.is_detailed_mode
            = false) := by simp [hdet]
        unfold push
        rw [if_neg hcond, wrapStack_hash, hrej, hdet, hlen]
      have hsplit := pushAll_append (wrapRange (n + 1)) [wrapStack (n + 1)] (mkStorage true)
      have hlast : pushAll (pushAll (mkStorage true) (wrapRange (n + 1))).1
          [wrapStack (n + 1)] =
          ((⟨(pushAll (mkStorage true) (wrapRange (n + 1))).1.stack_chunks ++
              [writeSlot emptyChunk 1 (wrapStack (n + 1))], true⟩ : Storage),
           [mkStackIndex (n + 1) 1]) := by
        rw [pushAll_singleton, hpush]
      rw [hsplitList, hsplit, hlast]
      refine ⟨?_, rfl, ?_, ?_⟩
      · simp only [List.length_append, List.length_cons, List.length_nil, hlen]
      · intro i hi
        simp only
        rcases Nat.lt_or_ge i (n + 1) with hlt | hge
        · exact get_append_of_get _ _ i 1 (wrapStack i) (hslots i hlt)
        · have hieq : i = n + 1 := by omega
          subst hieq
          rw [chunkSlot_append_last _ _ _ _ hlen.symm]
          simp [writeSlot]
      · simp only [hidxs, List.range_succ, List.map_append]
        rfl

/-- C8, counterexample.  Pushing the 65537 pairwise-distinct stacks of
wrapRange (all hashing to slot 1, one chunk each) and then repeating the
stack stored in chunk 65536: the repeated push returns the same
StackIndex as its first push -- but both are the narrowed pair (0, 1),
because the uint16_t chunk field wraps 65536 to 0 -- and get on that
index reads chunk 0, returning the different stack stored there.  This
refutes the claim as stated, at steps j = 65536 and k = 65537 of this
concrete push sequence. -/
theorem push_dedup_wraps :
    wrapSeq.get? 65536 = some (wrapStack 65536) ∧
    wrapSeq.get? 65537 = some (wrapStack 65536) ∧
    (pushAll (mkStorage true) wrapSeq).2.getD 65536 (0, 0) =
      (pushAll (mkStorage true) wrapSeq).2.getD 65537 (0, 0) ∧
    get (pushAll (mkStorage true) wrapSeq).1
      ((pushAll (mkStorage true) wrapSeq).2.getD 65537 (0, 0)) = some (wrapStack 0) ∧
    wrapStack 0 ≠ wrapStack 65536 := by
  obtain ⟨hlen, hdet, hslots, hidxs⟩ := wrapRange_spec 65537 (by omega)
  have hplen : (wrapRange 65537).length = 65537 := by
    unfold wrapRange
    rw [List.length_map, List.length_range]
  have hplaced : Placed (pushAll (mkStorage true) (wrapRange 65537)).1
      (wrapStack 65536) 65536 1 := by
    refine ⟨(wrapStack_hash 65536).symm, ?_, ?_⟩
    · rw [get_eq_chunkSlot]
      exact hslots 65536 (by omega)
    · intro j hj
      refine ⟨wrapStack j, ?_, wrapStack_ne j 65536 (by omega)⟩
      rw [get_eq_chunkSlot]
      exact hslots j (by omega)
  have hsplit := pushAll_snoc_split (mkStorage true) (wrapRange 65537)
    (wrapStack 65536) 65536 1 hdet hplaced
  have hfull : pushAll (mkStorage true) wrapSeq =
      ((pushAll (mkStorage true) (wrapRange 65537)).1,
       (List.range 65537).map (fun i => mkStackIndex i 1) ++ [mkStackIndex 65536 1]) := by
    show pushAll (mkStorage true) (wrapRange 65537 ++ [wrapStack 65536]) = _
    rw [hsplit, hidxs]
  have hmk : mkStackIndex 65536 1 = ((0 : Nat), (1 : Nat)) := by decide
  have hsnd : (pushAll (mkStorage true) wrapSeq).2 =
      (List.range 65537).map (fun i => mkStackIndex i 1) ++ [mkStackIndex 65536 1] :=
    prod_eq_snd hfull
  have hfst : (pushAll (mkStorage true) wrapSeq).1 =
      (pushAll (mkStorage true) (wrapRange 65537)).1 :=
    prod_eq_fst hfull
  have hmlen : ((List.range 65537).map (fun i => mkStackIndex i 1)).length = 65537 := by
    rw [List.length_map, List.length_range]
  have hgetD1 : (pushAll (mkStorage true) wrapSeq).2.getD 65536 (0, 0) =
      mkStackIndex 65536 1 := by
    rw [List.getD_eq_get?, hsnd, List.get?_append (by rw [hmlen]; omega),
      List.get?_map, List.get?_range (by omega)]
    rfl
  have hgetD2 : (pushAll (mkStorage true) wrapSeq).2.getD 65537 (0, 0) =
      mkStackIndex 65536 1 := by
    rw [List.getD_eq_get?, hsnd, List.get?_append_right (by rw [hmlen]), hmlen]
    rfl
  refine ⟨?_, ?_, ?_, ?_, wrapStack_ne 0 65536 (by omega)⟩
  · show (wrapRange 65537 ++ [wrapStack 65536]).get? 65536 = some (wrapStack 65536)
    rw [List.get?_append (by rw [hplen]; omega)]
    unfold wrapRange
    rw [List.get?_map, List.get?_range (by omega)]
    rfl
  · show (wrapRange 65537 ++ [wrapStack 65536]).get? 65537 = some (wrapStack 65536)
    rw [List.get?_append_right (by rw [hplen]), hplen]
    rfl
  · rw [hgetD1, hgetD2]
  · rw [hgetD2, hmk, hfst, get_eq_chunkSlot]
    exact hslots 0 (by omega)

end NativeCallStackStorage

namespace MemTagNameTable

theorem chain_stuck_aux : ∀ f, chainFind oneEntryTable.entries oneEntryTable.names [1, 3] f 0 = none := by
  intro f
  induction f with
  | zero => rfl
  | succ f ih =>
    show chainFind oneEntryTable.entries oneEntryTable.names [1, 3] f 0 = none
    exact ih

/-- C10.  The bucket-chain loops of NameToTagTable::get and put do not
terminate on a bucket holding an entry whose name differs from the
argument: on the reachable table holding the name 04 01 (bucket 144),
looking up or installing the different name 01 03 (same bucket 144)
runs forever, since the loop body never advances link to the entry's
next reference -- for every iteration count the loop is still running. -/
theorem bucket_chain_lookup_diverges : ∀ fuel,
    ntt_get oneEntryTable [1, 3] fuel = none ∧ ntt_put oneEntryTable 5 [1, 3] fuel = none := by
  intro fuel
  have h := chain_stuck_aux fuel
  constructor
  · show (chainFind oneEntryTable.entries oneEntryTable.names [1, 3] fuel 0).map _ = none
    rw [h]
    rfl
  · show (match chainFind oneEntryTable.entries oneEntryTable.names [1, 3] fuel 0 with
      | none => none
      | some (some e) => some (oneEntryTable, e.name)
      | some none => _) = none
    rw [h]

end MemTagNameTable

end NMT
